import Mathlib

/-!
Verification of the cluster-control resource-orchestration engine.

Shallow embedding of the core modules:
- configurable.py  : configuration variables (Var)
- resource.py      : Ref, Resource.order_of_operations / up / down,
                     Phase enter/exit, Resource.elaborate, PersistInFile.save
- formats.py       : JSONWriter / JSONReader graph codec with per-type
                     identity tables

Python attribute state is modelled by explicit state records; methods become
state-transforming functions; exceptions become Except / Outcome values;
the filesystem and the object heap become association lists.
-/

namespace ClusterControl

/-! ### Configuration variables (configurable.Var)

A Var holds an optional default and an optional selected value
(python attributes _default and _selected; None encodes unset).
The _parent, _name and _options attributes play no role in the
read/truthiness semantics and are omitted. -/

structure VarSt (α : Type) where
  default : Option α
  selected : Option α
deriving DecidableEq, Repr

/-- Translation of Var.__call__: if _selected is None then
(if _default is None raise, else _selected := _default); return _selected.
The state after the call is returned alongside the value. -/
def Var.call (v : VarSt α) : Except String (α × VarSt α) :=
  match v.selected with
  | some x => .ok (x, v)
  | none =>
    match v.default with
    | none => .error "Configuration var read before a value has been selected"
    | some d => .ok (d, { v with selected := some d })

/-- Translation of Var.__bool__: returns (_selected is not None); the method
only reads the attribute, so the state component is returned unchanged. -/
def Var.toBool (v : VarSt α) : Bool × VarSt α :=
  (v.selected.isSome, v)

/-- Translation of Var.select. -/
def Var.select (v : VarSt α) (x : α) : VarSt α :=
  { v with selected := some x }

/-- Translation of Var.clear. -/
def Var.clear (v : VarSt α) : VarSt α :=
  { v with selected := none }

/-! ### References (resource.Ref)

A Ref has attributes _path, _name, _owner (optional Ref) and _resource
(optional Resource).  The optional _owner is encoded by the choice of
constructor: base has _owner = None, aliased has _owner set.  The resource
type is abstracted by a type parameter. -/

inductive Ref (α : Type) where
  | base (path : List String) (name : String) (resource : Option α)
  | aliased (path : List String) (name : String) (owner : Ref α) (resource : Option α)
deriving DecidableEq, Repr

/-- Attribute _resource of a Ref, regardless of the owner slot. -/
def Ref.resourceOf : Ref α → Option α
  | .base _ _ r => r
  | .aliased _ _ _ r => r

/-- True iff the _owner attribute is set. -/
def Ref.isAliasC : Ref α → Bool
  | .base _ _ _ => false
  | .aliased _ _ _ _ => true

/-- Translation of Ref.path: [*self._path, self._name]. -/
def Ref.pathList : Ref α → List String
  | .base p n _ => p ++ [n]
  | .aliased p n _ _ => p ++ [n]

/-- Translation of Ref.__call__: if _owner is set, dereference the owner;
otherwise return _resource or fail when it is None. -/
def Ref.deref : Ref α → Except String α
  | .aliased _ _ o _ => Ref.deref o
  | .base _ _ (some r) => .ok r
  | .base _ _ none => .error "Resource reference is not connected"

/-- Translation of Ref.__bool__: if _owner is set, truthiness of the owner;
otherwise (_resource is not None). -/
def Ref.toBool : Ref α → Bool
  | .aliased _ _ o _ => Ref.toBool o
  | .base _ _ r => r.isSome

/-- End of the aliased chain: follow _owner links until a Ref whose _owner
is None.  This is the terminology of the specification (the terminal of
the chain); it is used to state what deref and truthiness compute. -/
def Ref.terminal : Ref α → Ref α
  | .aliased _ _ o _ => Ref.terminal o
  | .base p n r => .base p n r

/-- Translation of Ref.resolve: if _owner is set, do nothing; else if
_resource is None and a generator was supplied, set _resource to
generator(self.path()).  The returned Bool records whether the generator
was invoked (the python side effect). -/
def Ref.resolve (rf : Ref α) (generator : Option (List String → α)) : Ref α × Bool :=
  match rf with
  | .aliased p n o r => (.aliased p n o r, false)
  | .base p n none =>
    match generator with
    | some g => (.base p n (some (g (p ++ [n]))), true)
    | none => (.base p n none, false)
  | .base p n (some r) => (.base p n (some r), false)

/-- Translation of Ref.borrow: set _owner. -/
def Ref.borrow (rf : Ref α) (o : Ref α) : Ref α :=
  match rf with
  | .base p n r => .aliased p n o r
  | .aliased p n _ r => .aliased p n o r

/-- Translation of Ref.own: set _resource. -/
def Ref.own (rf : Ref α) (x : α) : Ref α :=
  match rf with
  | .base p n _ => .base p n (some x)
  | .aliased p n o _ => .aliased p n o (some x)

/-- A reference is bound when it is Owned (resource set, no owner) or
Aliased (owner set), per the specification of reference states. -/
def Ref.isBound : Ref α → Bool
  | .aliased _ _ _ _ => true
  | .base _ _ r => r.isSome

/-! ### Theorems for the configuration variable claims -/

/-- C6: Var read returns the explicitly selected value when one is set
(leaving the state unchanged and ignoring the default); otherwise, with a
default present, it adopts the default as the selected value and returns
it, so later reads return that value without re-consulting the default
(first conjunct applied to the post state, whatever the default then
holds); with neither, it fails with the read-before-selection error. -/
theorem var_read_selected_default_error (α : Type) :
    (∀ (d : Option α) (x : α),
        Var.call { default := d, selected := some x } =
          .ok (x, { default := d, selected := some x })) ∧
    (∀ d : α,
        Var.call { default := some d, selected := none } =
          .ok (d, { default := some d, selected := some d })) ∧
    Var.call { default := none, selected := none : VarSt α } =
      .error "Configuration var read before a value has been selected" := by
  refine ⟨fun d x => rfl, fun d => rfl, rfl⟩

/-- C7: for a variable with a default and no explicit selection, truthiness
is false; one read adopts the default; truthiness is true afterwards; and
evaluating truthiness never changes the state of any variable (so it never
realizes the default as selected). -/
theorem var_truthiness_frame (α : Type) (d : α) :
    (Var.toBool { default := some d, selected := none : VarSt α }).1 = false ∧
    Var.call { default := some d, selected := none : VarSt α } =
      .ok (d, { default := some d, selected := some d }) ∧
    (Var.toBool { default := some d, selected := some d : VarSt α }).1 = true ∧
    (∀ v : VarSt α, (Var.toBool v).2 = v) := by
  refine ⟨rfl, rfl, rfl, fun v => rfl⟩

/-! ### Theorems for the reference claims -/

theorem ref_terminal_not_alias (rf : Ref α) : (Ref.terminal rf).isAliasC = false := by
  induction rf with
  | base p n r => rfl
  | aliased p n o r ih => simpa [Ref.terminal] using ih

theorem ref_deref_terminal (rf : Ref α) : Ref.deref rf = Ref.deref (Ref.terminal rf) := by
  induction rf with
  | base p n r => rfl
  | aliased p n o r ih => simpa [Ref.deref, Ref.terminal] using ih

theorem ref_toBool_terminal (rf : Ref α) : Ref.toBool rf = Ref.toBool (Ref.terminal rf) := by
  induction rf with
  | base p n r => rfl
  | aliased p n o r ih => simpa [Ref.toBool, Ref.terminal] using ih

/-- C8: dereferencing an Aliased reference follows the aliased chain (it
equals dereferencing the chain terminal, which is never itself aliased);
dereferencing an Owned reference returns its resource; an Unbound one
fails with the connection error.  Truthiness follows the chain for
Aliased, is true for Owned and false for Unbound. -/
theorem ref_deref_and_truthiness (α : Type) :
    (∀ (p : List String) (n : String) (o : Ref α) (r : Option α),
        Ref.deref (Ref.aliased p n o r) = Ref.deref o ∧
        Ref.toBool (Ref.aliased p n o r) = Ref.toBool o) ∧
    (∀ rf : Ref α,
        Ref.deref rf = Ref.deref (Ref.terminal rf) ∧
        Ref.toBool rf = Ref.toBool (Ref.terminal rf) ∧
        (Ref.terminal rf).isAliasC = false) ∧
    (∀ (p : List String) (n : String) (x : α),
        Ref.deref (Ref.base p n (some x)) = .ok x ∧
        Ref.toBool (Ref.base p n (some x)) = true) ∧
    (∀ (p : List String) (n : String),
        Ref.deref (Ref.base p n (none : Option α)) =
          .error "Resource reference is not connected" ∧
        Ref.toBool (Ref.base p n (none : Option α)) = false) := by
  refine ⟨fun p n o r => ⟨rfl, rfl⟩,
          fun rf => ⟨ref_deref_terminal rf, ref_toBool_terminal rf, ref_terminal_not_alias rf⟩,
          fun p n x => ⟨rfl, rfl⟩,
          fun p n => ⟨rfl, rfl⟩⟩

/-- C9: resolving an already-bound reference (Owned or Aliased) leaves the
reference unchanged and never invokes the factory, whether or not one is
supplied. -/
theorem ref_resolve_bound_noop (α : Type) (rf : Ref α)
    (g : Option (List String → α)) (h : Ref.isBound rf = true) :
    Ref.resolve rf g = (rf, false) := by
  cases rf with
  | aliased p n o r => rfl
  | base p n r =>
    cases r with
    | none => simp [Ref.isBound] at h
    | some x => rfl

/-- Witness for C9 at a concrete bound reference and a concrete factory. -/
theorem ref_resolve_bound_noop_witness :
    (Ref.base [] "x" (some 5) : Ref Nat).isBound = true ∧
    Ref.resolve (Ref.base [] "x" (some 5) : Ref Nat) (some fun _ => 9) =
      (Ref.base [] "x" (some 5), false) :=
  ⟨by decide, ref_resolve_bound_noop Nat (Ref.base [] "x" (some 5)) (some fun _ => 9) (by decide)⟩

/-! ### Resource attribute dictionaries and order_of_operations

A resource instance is modelled by the ordered list of its attributes
(python dict preserves insertion order, which is field-declaration order).
Only the distinction Var-attribute versus Ref-attribute matters to
collect, elaborate, up, down and order_of_operations; child resources are
abstracted to values of a token type. -/

inductive FieldVal (γ : Type) where
  | varFld : FieldVal γ
  | refFld : Ref γ → FieldVal γ
deriving DecidableEq, Repr

/-- Translation of Resource.order_of_operations: iterate the attribute
dict in order; for each Ref attribute, if its _resource is None print a
warning and skip it, else append the resource.  (The defensive type-error
branch of the source cannot fire in this typed model.) -/
def orderOfOperations : List (FieldVal γ) → List γ
  | [] => []
  | .varFld :: rest => orderOfOperations rest
  | .refFld rf :: rest =>
    match rf.resourceOf with
    | none => orderOfOperations rest
    | some r => r :: orderOfOperations rest

/-- Events of a run: phase enter and exit prints, the checkpoint write
performed by Phase.__exit__, invocation of a child lifecycle operation,
and the MISSING print of Phase.missing. -/
inductive Ev (γ : Type) where
  | phaseBegin : Ev γ
  | phaseEnd : Ev γ
  | save : Ev γ
  | act : γ → Ev γ
  | missingItem : γ → Ev γ
deriving DecidableEq, Repr

/-- Translation of Resource.up: for each element of order_of_operations,
inside a fresh checkpointing Phase, invoke up on the child. -/
def upRun (fields : List (FieldVal γ)) : List (Ev γ) :=
  (orderOfOperations fields).flatMap fun c =>
    [Ev.phaseBegin, Ev.act c, Ev.phaseEnd, Ev.save]

/-- Translation of Resource.down: copy order_of_operations into a list,
reverse it in place, then invoke down on each element inside a fresh
checkpointing Phase. -/
def downRun (fields : List (FieldVal γ)) : List (Ev γ) :=
  ((orderOfOperations fields).reverse).flatMap fun c =>
    [Ev.phaseBegin, Ev.act c, Ev.phaseEnd, Ev.save]

/-- Children on which a run invokes the child operation, in order. -/
def acts : List (Ev γ) → List γ
  | [] => []
  | .act c :: rest => c :: acts rest
  | _ :: rest => acts rest

/-- Owned children of the declared Reference fields, in declaration order:
resources held by Ref attributes whose _owner slot is empty.  This follows
the wording of the specification and is compared against the source
translation orderOfOperations. -/
def ownedChildren (fields : List (FieldVal γ)) : List γ :=
  fields.filterMap fun f =>
    match f with
    | .refFld (.base _ _ r) => r
    | _ => none

/-- Decidable form of: the attribute is not an aliasing Ref. -/
def fieldNotAliasing : FieldVal γ → Bool
  | .refFld rf => !rf.isAliasC
  | .varFld => true

theorem acts_flatMap (l : List γ) :
    acts (l.flatMap fun c => [Ev.phaseBegin, Ev.act c, Ev.phaseEnd, Ev.save]) = l := by
  induction l with
  | nil => rfl
  | cons c rest ih => simpa [List.flatMap_cons, acts] using ih

theorem orderOfOperations_eq_ownedChildren (fields : List (FieldVal γ))
    (hna : ∀ f ∈ fields, fieldNotAliasing f = true) :
    orderOfOperations fields = ownedChildren fields := by
  induction fields with
  | nil => rfl
  | cons f rest ih =>
    have hf := hna f (List.mem_cons_self f rest)
    have hrest : ∀ g ∈ rest, fieldNotAliasing g = true := fun g hg =>
      hna g (List.mem_cons_of_mem f hg)
    cases f with
    | varFld => simpa [orderOfOperations, ownedChildren] using ih hrest
    | refFld rf =>
      cases rf with
      | base p n r =>
        cases r with
        | none =>
          simpa [orderOfOperations, ownedChildren, Ref.resourceOf] using ih hrest
        | some x =>
          simpa [orderOfOperations, ownedChildren, Ref.resourceOf] using ih hrest
      | aliased p n o r =>
        simp [fieldNotAliasing, Ref.isAliasC] at hf

/-- C1: when the Reference fields own the children cs in declaration order
(no aliasing Refs among the attributes), the default up invokes up on
exactly cs and the default down invokes down on exactly cs.reverse. -/
theorem up_down_exact_reverse (γ : Type) (fields : List (FieldVal γ)) (cs : List γ)
    (hna : ∀ f ∈ fields, fieldNotAliasing f = true)
    (hcs : ownedChildren fields = cs) :
    acts (upRun fields) = cs ∧ acts (downRun fields) = cs.reverse := by
  have h := orderOfOperations_eq_ownedChildren fields hna
  constructor
  · rw [upRun, acts_flatMap, h, hcs]
  · rw [downRun, acts_flatMap, h, hcs]

/-- Witness for C1 on a resource with a Var attribute and two owning Ref
attributes. -/
theorem up_down_exact_reverse_witness :
    (∀ f ∈ [FieldVal.varFld, FieldVal.refFld (Ref.base [] "a" (some 1)),
            FieldVal.refFld (Ref.base [] "b" (some 2))], fieldNotAliasing f = true) ∧
    acts (upRun [FieldVal.varFld, FieldVal.refFld (Ref.base [] "a" (some 1)),
            FieldVal.refFld (Ref.base [] "b" (some 2))]) = [1, 2] ∧
    acts (downRun [FieldVal.varFld, FieldVal.refFld (Ref.base [] "a" (some 1)),
            FieldVal.refFld (Ref.base [] "b" (some 2))]) = [2, 1] :=
  ⟨by decide,
   (up_down_exact_reverse Nat _ [1, 2] (by decide) (by decide)).1,
   (up_down_exact_reverse Nat _ [1, 2] (by decide) (by decide)).2⟩

/-- C10 counterexample: two owning Reference fields holding the same child
instance.  order_of_operations returns that child twice, so its result is
not a list of distinct resources as the claim states. -/
theorem orderOfOperations_duplicate_counterexample :
    orderOfOperations [FieldVal.refFld (Ref.base [] "a" (some 0)),
                       FieldVal.refFld (Ref.base [] "b" (some 0))] = [0, 0] ∧
    ¬ List.Nodup (orderOfOperations
        [FieldVal.refFld (Ref.base [] "a" (some 0)),
         FieldVal.refFld (Ref.base [] "b" (some 0))]) := by
  constructor
  · decide
  · decide

/-- Per-field resource listing in declaration order: one entry for every
Ref attribute whose _resource slot is filled, none for the others.  This
states the amended C10 wording. -/
def perFieldResources (fields : List (FieldVal γ)) : List γ :=
  fields.filterMap fun f =>
    match f with
    | .refFld rf => rf.resourceOf
    | .varFld => none

/-- C10 amended: order_of_operations returns one entry per Reference field
whose resource slot is filled, in field-declaration order (so a shared
instance owned through two fields appears twice); Ref fields whose
resource slot is empty, in particular unbound references and aliasing
references that never received a resource of their own, contribute no
entry, and Var attributes contribute none. -/
theorem orderOfOperations_per_field (γ : Type) :
    (∀ fields : List (FieldVal γ),
        orderOfOperations fields = perFieldResources fields) ∧
    (∀ (fields : List (FieldVal γ)) (p : List String) (n : String),
        orderOfOperations (fields ++ [.refFld (.base p n none)]) =
          orderOfOperations fields) ∧
    (∀ (fields : List (FieldVal γ)) (p : List String) (n : String) (o : Ref γ),
        orderOfOperations (fields ++ [.refFld (.aliased p n o none)]) =
          orderOfOperations fields) ∧
    (∀ fields : List (FieldVal γ),
        orderOfOperations (fields ++ [.varFld]) = orderOfOperations fields) := by
  have key : ∀ fields : List (FieldVal γ),
      orderOfOperations fields = perFieldResources fields := by
    intro fields
    induction fields with
    | nil => rfl
    | cons f rest ih =>
      cases f with
      | varFld => simpa [orderOfOperations, perFieldResources] using ih
      | refFld rf =>
        cases h : rf.resourceOf with
        | none => simpa [orderOfOperations, perFieldResources, h] using ih
        | some x => simpa [orderOfOperations, perFieldResources, h] using ih
  refine ⟨key, fun fields p n => ?_, fun fields p n o => ?_, fun fields => ?_⟩
  · rw [key, key, perFieldResources, perFieldResources, List.filterMap_append]
    simp [Ref.resourceOf]
  · rw [key, key, perFieldResources, perFieldResources, List.filterMap_append]
    simp [Ref.resourceOf]
  · rw [key, key, perFieldResources, perFieldResources, List.filterMap_append]
    simp

/-! ### Phase enter/exit and Resource.elaborate

A running python computation is abstracted by the trace of its observable
events together with its outcome: normal return, a propagating external
exception, or the RuntimeError that Phase.__exit__ raises when the
missing flag is set. -/

inductive Outcome where
  | ok
  | extErr
  | missingErr
deriving DecidableEq, Repr

/-- Translation of the with-statement around a Phase (Phase.__enter__ and
Phase.__exit__).  The body of the block is abstracted by the trace it
printed, the final value of the has_error flag of this phase (set by
Phase.missing), and its outcome.  Enter prints BEGIN; exit prints END,
always calls persistor.save, and then raises the missing-configuration
RuntimeError iff has_error, which also supersedes a propagating body
exception, exactly as an exception raised inside python __exit__ does. -/
def withPhase (bodyTr : List (Ev γ)) (flag : Bool) (bodyOut : Outcome) :
    List (Ev γ) × Outcome :=
  ([Ev.phaseBegin] ++ bodyTr ++ [Ev.phaseEnd, Ev.save],
   if flag then Outcome.missingErr else bodyOut)

/-- Reference fields of a resource as seen by Resource.elaborate.  A Ref
attribute is unbound (no owner, no resource), aliasing (owner set, own
resource slot empty; the Bool is the truthiness of the owner chain
terminal), or owning a child resource, whose own Ref attributes are the
nested list.  Var attributes are skipped by elaborate and are kept to
model the dict iteration faithfully. -/
inductive RField where
  | varF : RField
  | unboundRef (nm : String) : RField
  | aliasRef (nm : String) (b : Bool) : RField
  | ownedRef (nm : String) (children : List RField) : RField

/-- Translation of Resource.elaborate: for each Ref attribute in
declaration order, open a sub-phase; inside it, Ref.elaborate resolves
without a generator (a no-op), recurses into the owned resource when the
resource slot is filled, and returns the truthiness of the Ref; when that
is false the sub-phase flags missing.  The sub-phase exit prints END,
saves, and raises when its flag was set; an error propagating out of a
sub-phase stops the loop over the remaining attributes. -/
def elabFields : List RField → List (Ev String) × Outcome
  | [] => ([], .ok)
  | .varF :: rest => elabFields rest
  | .unboundRef nm :: _ =>
      ([Ev.phaseBegin, Ev.missingItem nm, Ev.phaseEnd, Ev.save], .missingErr)
  | .aliasRef nm b :: rest =>
      if b then
        let r2 := elabFields rest
        ([Ev.phaseBegin, Ev.phaseEnd, Ev.save] ++ r2.1, r2.2)
      else ([Ev.phaseBegin, Ev.missingItem nm, Ev.phaseEnd, Ev.save], .missingErr)
  | .ownedRef _ children :: rest =>
      let r := elabFields children
      match r.2 with
      | .ok =>
        let r2 := elabFields rest
        (([Ev.phaseBegin] ++ r.1 ++ [Ev.phaseEnd, Ev.save]) ++ r2.1, r2.2)
      | e => ([Ev.phaseBegin] ++ r.1 ++ [Ev.phaseEnd, Ev.save], e)

/-- Whether a field list elaborates without flagging missing anywhere. -/
def fieldsOk : List RField → Bool
  | [] => true
  | .varF :: rest => fieldsOk rest
  | .unboundRef _ :: _ => false
  | .aliasRef _ b :: rest => b && fieldsOk rest
  | .ownedRef _ children :: rest => fieldsOk children && fieldsOk rest

def isSave : Ev γ → Bool
  | .save => true
  | _ => false

def isEnd : Ev γ → Bool
  | .phaseEnd => true
  | _ => false

/-- Number of checkpoint writes in a trace. -/
def saveCount (tr : List (Ev γ)) : Nat := tr.countP isSave

/-- Number of phase exits in a trace. -/
def endCount (tr : List (Ev γ)) : Nat := tr.countP isEnd

theorem elabFields_ok_of_fieldsOk :
    ∀ fs : List RField, fieldsOk fs = true → (elabFields fs).2 = Outcome.ok := by
  intro fs
  induction fs using elabFields.induct with
  | case1 => intro h; simp [elabFields]
  | case2 rest ih =>
    intro h
    simpa [elabFields] using ih (by simpa [fieldsOk] using h)
  | case3 nm tail => intro h; simp [fieldsOk] at h
  | case4 nm rest ih =>
    intro h
    simp [fieldsOk] at h
    simpa [elabFields] using ih h
  | case5 nm b rest hb =>
    intro h
    have hb2 : b = false := by revert hb; cases b <;> simp
    simp [fieldsOk, hb2] at h
  | case6 nm children rest r hr ihc ihr =>
    intro h
    simp [fieldsOk] at h
    have hr2 : (elabFields children).2 = Outcome.ok := hr
    simpa [elabFields, hr2] using ihr h.2
  | case7 nm children rest r hfalse ihc =>
    intro h
    simp [fieldsOk] at h
    have hf2 : (elabFields children).2 = Outcome.ok → False := hfalse
    exact (hf2 (ihc h.1)).elim

theorem elabFields_append_of_ok :
    ∀ fs1 : List RField, fieldsOk fs1 = true → ∀ l2 : List RField,
      elabFields (fs1 ++ l2) =
        ((elabFields fs1).1 ++ (elabFields l2).1, (elabFields l2).2) := by
  intro fs1
  induction fs1 using elabFields.induct with
  | case1 => intro h l2; simp [elabFields]
  | case2 rest ih =>
    intro h l2
    simpa [elabFields] using ih (by simpa [fieldsOk] using h) l2
  | case3 nm tail => intro h; simp [fieldsOk] at h
  | case4 nm rest ih =>
    intro h l2
    simp [fieldsOk] at h
    simp [elabFields, ih h l2]
  | case5 nm b rest hb =>
    intro h
    have hb2 : b = false := by revert hb; cases b <;> simp
    simp [fieldsOk, hb2] at h
  | case6 nm children rest r hr ihc ihr =>
    intro h l2
    simp [fieldsOk] at h
    have hr2 : (elabFields children).2 = Outcome.ok := hr
    simp [elabFields, hr2, ihr h.2 l2]
  | case7 nm children rest r hfalse ihc =>
    intro h l2
    simp [fieldsOk] at h
    have hf2 : (elabFields children).2 = Outcome.ok → False := hfalse
    exact (hf2 (elabFields_ok_of_fieldsOk children h.1)).elim

/-- C5 counterexample: a resource with two unresolvable Reference fields.
Elaboration fails, the first field is logged missing, but the second
missing item is never logged before the abort, refuting the claim that
all missing items of the subtree are logged together. -/
theorem elaborate_no_aggregation_counterexample :
    (elabFields [RField.unboundRef "f1", RField.unboundRef "f2"]).2 =
      Outcome.missingErr ∧
    Ev.missingItem "f1" ∈ (elabFields [RField.unboundRef "f1", RField.unboundRef "f2"]).1 ∧
    Ev.missingItem "f2" ∉ (elabFields [RField.unboundRef "f1", RField.unboundRef "f2"]).1 := by
  refine ⟨by simp [elabFields], by simp [elabFields], by simp [elabFields]⟩

/-- C5 amended: a missing condition is flagged on the sub-phase wrapping
the Reference field being elaborated and becomes a thrown failure at that
sub-phase exit, after the sub-phase checkpoint; fields before the first
failing one keep their full trace, while fields after it are never
elaborated and contribute no trace and no missing log. -/
theorem elaborate_first_missing_aborts (fs1 fs2 : List RField) (nm : String)
    (h : fieldsOk fs1 = true) :
    elabFields (fs1 ++ RField.unboundRef nm :: fs2) =
      ((elabFields fs1).1 ++
         [Ev.phaseBegin, Ev.missingItem nm, Ev.phaseEnd, Ev.save],
       Outcome.missingErr) := by
  rw [elabFields_append_of_ok fs1 h (RField.unboundRef nm :: fs2)]
  simp [elabFields]

/-- Witness for the amended C5 on a concrete resource: an alias field that
resolves, then an unbound field, then another unbound field that is never
reached. -/
theorem elaborate_first_missing_aborts_witness :
    fieldsOk [RField.aliasRef "a" true] = true ∧
    elabFields ([RField.aliasRef "a" true] ++ RField.unboundRef "f" :: [RField.unboundRef "z"]) =
      ((elabFields [RField.aliasRef "a" true]).1 ++
         [Ev.phaseBegin, Ev.missingItem "f", Ev.phaseEnd, Ev.save],
       Outcome.missingErr) :=
  ⟨by simp [fieldsOk],
   elaborate_first_missing_aborts [RField.aliasRef "a" true] [RField.unboundRef "z"] "f"
     (by simp [fieldsOk])⟩

theorem elabFields_save_eq_end :
    ∀ fs : List RField, saveCount (elabFields fs).1 = endCount (elabFields fs).1 := by
  intro fs
  induction fs using elabFields.induct with
  | case1 => simp [elabFields, saveCount, endCount]
  | case2 rest ih => simpa [elabFields] using ih
  | case3 nm tail =>
    simp [elabFields, saveCount, endCount, List.countP_cons, isSave, isEnd]
  | case4 nm rest ih =>
    simp only [elabFields, if_true, saveCount, endCount, List.countP_append] at ih ⊢
    simp [List.countP_cons, isSave, isEnd]
    omega
  | case5 nm b rest hb =>
    have hb2 : b = false := by revert hb; cases b <;> simp
    simp [elabFields, hb2, saveCount, endCount, List.countP_cons, isSave, isEnd]
  | case6 nm children rest r hr ihc ihr =>
    have hr2 : (elabFields children).2 = Outcome.ok := hr
    simp only [elabFields, hr2, saveCount, endCount, List.countP_append] at ihc ihr ⊢
    simp [List.countP_cons, isSave, isEnd]
    omega
  | case7 nm children rest r hfalse ihc =>
    simp only [elabFields, saveCount, endCount] at ihc ⊢
    rcases hout : (elabFields children).2 with _ | _ | _
    · exact ((hfalse : (elabFields children).2 = Outcome.ok → False) hout).elim
    all_goals
      simp [hout, List.countP_append, List.countP_cons, isSave, isEnd] at ihc ⊢
    all_goals omega

theorem getLast?_append_right (l1 l2 : List β) (v : β)
    (h : l2.getLast? = some v) : (l1 ++ l2).getLast? = some v := by
  have hne : l2 ≠ [] := by intro hnil; rw [hnil] at h; simp at h
  rw [List.getLast?_append_of_ne_nil l1 hne]
  exact h

theorem elabFields_err_last_save :
    ∀ fs : List RField, (elabFields fs).2 ≠ Outcome.ok →
      (elabFields fs).1.getLast? = some Ev.save := by
  intro fs
  induction fs using elabFields.induct with
  | case1 => intro h; exact absurd (by simp [elabFields]) h
  | case2 rest ih =>
    intro h
    simpa [elabFields] using ih (by simpa [elabFields] using h)
  | case3 nm tail => intro h; simp [elabFields]
  | case4 nm rest ih =>
    intro h
    have hlast := ih (by simpa [elabFields] using h)
    have hok : ([Ev.phaseBegin, Ev.phaseEnd, Ev.save] ++ (elabFields rest).1).getLast? =
        some Ev.save := getLast?_append_right _ _ _ hlast
    simpa [elabFields] using hok
  | case5 nm b rest hb =>
    intro h
    have hb2 : b = false := by revert hb; cases b <;> simp
    simp [elabFields, hb2]
  | case6 nm children rest r hr ihc ihr =>
    intro h
    have hr2 : (elabFields children).2 = Outcome.ok := hr
    have hlast := ihr (by simpa [elabFields, hr2] using h)
    have hok := getLast?_append_right
      ([Ev.phaseBegin] ++ (elabFields children).1 ++ [Ev.phaseEnd, Ev.save])
      (elabFields rest).1 Ev.save hlast
    simpa [elabFields, hr2] using hok
  | case7 nm children rest r hfalse ihc =>
    intro h
    have hf2 : (elabFields children).2 = Outcome.ok → False := hfalse
    rcases hout : (elabFields children).2 with _ | _ | _
    · exact (hf2 hout).elim
    all_goals
      simp only [elabFields, hout]
      rw [show [Ev.phaseBegin] ++ (elabFields children).1 ++ [Ev.phaseEnd, Ev.save] =
            ([Ev.phaseBegin] ++ (elabFields children).1 ++ [Ev.phaseEnd]) ++ [Ev.save] by
              simp]
      exact List.getLast?_concat _

/-- C3: leaving a Phase, whatever the body did, always performs exactly
one additional checkpoint write, that write is the last event before
control returns (so it completes before any failure reaches the caller),
and the phase outcome is a failure whenever the body flagged missing or
failed; moreover, along a whole elaborate run, checkpoint writes match
phase exits one for one, and a failing run still ends in a completed
checkpoint. -/
theorem phase_exit_always_checkpoints :
    (∀ (γ : Type) (bodyTr : List (Ev γ)) (flag : Bool) (bodyOut : Outcome),
        saveCount (withPhase bodyTr flag bodyOut).1 = saveCount bodyTr + 1 ∧
        (withPhase bodyTr flag bodyOut).1.getLast? = some Ev.save ∧
        (flag = true → (withPhase bodyTr flag bodyOut).2 = Outcome.missingErr) ∧
        (flag = false → (withPhase bodyTr flag bodyOut).2 = bodyOut)) ∧
    (∀ fs : List RField,
        saveCount (elabFields fs).1 = endCount (elabFields fs).1 ∧
        ((elabFields fs).2 ≠ Outcome.ok →
          (elabFields fs).1.getLast? = some (Ev.save : Ev String))) := by
  constructor
  · intro γ bodyTr flag bodyOut
    refine ⟨?_, ?_, ?_, ?_⟩
    · simp [withPhase, saveCount, List.countP_append, List.countP_cons, isSave]
    · rw [withPhase]
      rw [show [Ev.phaseBegin] ++ bodyTr ++ [Ev.phaseEnd, Ev.save] =
            ([Ev.phaseBegin] ++ bodyTr ++ [Ev.phaseEnd]) ++ [Ev.save] by simp]
      exact List.getLast?_concat _
    · intro hf; simp [withPhase, hf]
    · intro hf; simp [withPhase, hf]
  · intro fs
    exact ⟨elabFields_save_eq_end fs, elabFields_err_last_save fs⟩

/-- Witness for C3 on a concrete flagged body and a concrete failing
elaborate run. -/
theorem phase_exit_always_checkpoints_witness :
    (withPhase [Ev.act 7] true Outcome.ok).2 = Outcome.missingErr ∧
    (withPhase [Ev.act 7] true Outcome.ok).1.getLast? = some Ev.save ∧
    (elabFields [RField.unboundRef "x"]).1.getLast? = some (Ev.save : Ev String) :=
  ⟨(phase_exit_always_checkpoints.1 Nat [Ev.act 7] true Outcome.ok).2.2.1 rfl,
   (phase_exit_always_checkpoints.1 Nat [Ev.act 7] true Outcome.ok).2.1,
   (phase_exit_always_checkpoints.2 [RField.unboundRef "x"]).2 (by simp [elabFields])⟩

/-! ### PersistInFile.save and the filesystem

The filesystem is an association list from file names to contents; the
most recent binding of a name shadows older ones.  Renaming moves the
content of the source name onto the destination name, as os.rename does
for files on one filesystem. -/

abbrev Fs := List (String × String)

def fsLookup : Fs → String → Option String
  | [], _ => none
  | (k, v) :: rest, nm => if k = nm then some v else fsLookup rest nm

def fsWrite (fs : Fs) (nm content : String) : Fs := (nm, content) :: fs

def fsRemove (fs : Fs) (nm : String) : Fs := fs.filter fun p => p.1 != nm

def fsRename (fs : Fs) (src dst : String) : Option Fs :=
  match fsLookup fs src with
  | none => none
  | some c => some (fsWrite (fsRemove fs src) dst c)

/-- Translation of PersistInFile.save: write the complete serialized
state into the file named path ++ ".next", then rename that file over
path.  The pair holds the intermediate filesystem right after the write
to the .next file (the state at an interruption just before the rename)
and the result of the rename. -/
def persistSave (fs : Fs) (path content : String) : Fs × Option Fs :=
  let mid := fsWrite fs (path ++ ".next") content
  (mid, fsRename mid (path ++ ".next") path)

theorem string_ne_append_next (s : String) : s ≠ s ++ ".next" := by
  intro h
  have h2 := congrArg String.length h
  simp [String.length_append] at h2
  exact absurd h2 (by decide)

theorem fsLookup_write_eq (fs : Fs) (nm c : String) :
    fsLookup (fsWrite fs nm c) nm = some c := by
  simp [fsWrite, fsLookup]

theorem fsLookup_write_ne (fs : Fs) (nm c k : String) (h : nm ≠ k) :
    fsLookup (fsWrite fs nm c) k = fsLookup fs k := by
  simp [fsWrite, fsLookup, h]

/-- C4: save first materializes the full content under path ++ ".next";
in the intermediate state (interruption before the rename) the file at
path is unchanged and the .next file holds the complete content; the
rename then succeeds and afterwards the file at path holds exactly the
prior content of the .next file. -/
theorem persist_save_atomic (fs : Fs) (path content : String) :
    fsLookup (persistSave fs path content).1 path = fsLookup fs path ∧
    fsLookup (persistSave fs path content).1 (path ++ ".next") = some content ∧
    ∃ f2, (persistSave fs path content).2 = some f2 ∧
      fsLookup f2 path =
        fsLookup (persistSave fs path content).1 (path ++ ".next") ∧
      fsLookup f2 path = some content := by
  have hne : path ++ ".next" ≠ path := fun h => string_ne_append_next path h.symm
  refine ⟨?_, ?_, ?_⟩
  · simpa [persistSave] using fsLookup_write_ne fs (path ++ ".next") content path hne
  · simpa [persistSave] using fsLookup_write_eq fs (path ++ ".next") content
  · refine ⟨fsWrite (fsRemove (fsWrite fs (path ++ ".next") content) (path ++ ".next"))
        path content, ?_, ?_, ?_⟩
    · simp [persistSave, fsRename, fsLookup_write_eq]
    · rw [fsLookup_write_eq]
      simp [persistSave]
      rw [fsLookup_write_eq]
    · exact fsLookup_write_eq _ path content

/-! ### The graph codec (formats.JSONWriter / formats.JSONReader)

Marshallable objects live on a heap addressed by natural numbers (python
object identity).  A node carries a scalar payload (the inline non-object
attributes of the marshalled object) and the addresses of its child
objects, in marshal order.  The serialized form is a tree of tagged
values: a full object with its per-type sequential id, payload and
children, or a bare back-reference carrying only the id of an object
already emitted in this pass, exactly the shape JSONWriter produces
(all objects here share one type tag, so the per-type tables have a
single entry point).  Recursion is bounded by fuel so the functions are
total; the round-trip theorem is conditioned on the writer succeeding,
and the witness shows it does on a concrete graph. -/

abbrev Addr := Nat

structure CNode where
  val : Nat
  children : List Addr
deriving DecidableEq, Repr

abbrev CHeap := List (Addr × CNode)

inductive JVal where
  | node (id : Nat) (val : Nat) (kids : List JVal)
  | backref (id : Nat)

abbrev WRefs := List (Addr × Nat)

/-- First-match association lookup (python dict membership and access;
the codec only ever inserts fresh keys). -/
def alookup : List (Nat × β) → Nat → Option β
  | [], _ => none
  | (k, v) :: rest, k2 => if k = k2 then some v else alookup rest k2

/-- Replace the binding of a key (python setattr on an existing object). -/
def aupdate : CHeap → Addr → CNode → CHeap
  | [], k, v => [(k, v)]
  | (k2, v2) :: rest, k, v =>
    if k2 = k then (k, v) :: rest else (k2, v2) :: aupdate rest k v

/-- Translation of JSONWriter.beginObject / inline / toJSON over a list
of objects to serialize: an object whose identity is already in the refs
table becomes a bare back-reference (is_ref suppresses the fields);
otherwise it receives the next sequential id, is registered in the table
before its fields are visited, and is emitted with payload and
recursively serialized children. -/
def wGo (heap : CHeap) : Nat → List Addr → WRefs → Option (List JVal × WRefs)
  | _, [], refs => some ([], refs)
  | 0, _ :: _, _ => none
  | Nat.succ f, a :: rest, refs =>
    match alookup refs a with
    | some i =>
      match wGo heap f rest refs with
      | none => none
      | some (js, refs2) => some (JVal.backref i :: js, refs2)
    | none =>
      match alookup heap a with
      | none => none
      | some nd =>
        match wGo heap f nd.children (refs ++ [(a, refs.length)]) with
        | none => none
        | some (kids, refs1) =>
          match wGo heap f rest refs1 with
          | none => none
          | some (js, refs2) => some (JVal.node refs.length nd.val kids :: js, refs2)

/-- Reader state: the reconstructed heap, the by-id table mapping
serialized ids to reconstructed objects, and the next fresh address
(allocation by instantiate). -/
structure RSt where
  heap : CHeap
  byId : List (Nat × Addr)
  nextAddr : Nat
deriving DecidableEq, Repr

/-- Translation of JSONReader.read / beginObject / inline over a list of
serialized values: a back-reference resolves through the by-id table; a
full value whose id was already seen reuses the previously constructed
instance (fields present in the input are still read onto it); a fresh
id allocates a new instance, registers it in the table before its fields
are read, reads the fields, and finally records the object. -/
def rGo : Nat → List JVal → RSt → Option (List Addr × RSt)
  | _, [], st => some ([], st)
  | 0, _ :: _, _ => none
  | Nat.succ f, JVal.backref i :: rest, st =>
    match alookup st.byId i with
    | none => none
    | some a =>
      match rGo f rest st with
      | none => none
      | some (as2, st2) => some (a :: as2, st2)
  | Nat.succ f, JVal.node i v kids :: rest, st =>
    match alookup st.byId i with
    | some a =>
      match rGo f kids st with
      | none => none
      | some (cs, st1) =>
        match rGo f rest { heap := aupdate st1.heap a { val := v, children := cs },
                           byId := st1.byId, nextAddr := st1.nextAddr } with
        | none => none
        | some (as2, st2) => some (a :: as2, st2)
    | none =>
      match rGo f kids { heap := st.heap, byId := st.byId ++ [(i, st.nextAddr)],
                         nextAddr := st.nextAddr + 1 } with
      | none => none
      | some (cs, st2) =>
        match rGo f rest { heap := st2.heap ++ [(st.nextAddr, { val := v, children := cs })],
                           byId := st2.byId, nextAddr := st2.nextAddr } with
        | none => none
        | some (as2, st3) => some (st.nextAddr :: as2, st3)

/-- Empty reader state: a fresh JSONReader with empty tables. -/
def rInit : RSt := { heap := [], byId := [], nextAddr := 0 }

/-- Renaming of a node along a writer refs table: the reconstructed node
an original node should map to. -/
def transNode (refs : WRefs) (nd : CNode) : CNode :=
  { val := nd.val, children := nd.children.map fun c => (alookup refs c).getD 0 }

/-- The identity table [(0,0), (1,1), ...]: because the reader meets
first occurrences in the same order in which the writer assigned the
sequential ids, its by-id table maps id k to reconstructed address k. -/
def idties : Nat → List (Nat × Nat)
  | 0 => []
  | Nat.succ n => idties n ++ [(n, n)]

/-- The writer ids are 0, 1, 2, ... in registration order. -/
def seqIds (refs : WRefs) : Prop :=
  refs.map Prod.snd = List.range refs.length

theorem alookup_append_left (xs ys : List (Nat × β)) (k : Nat) (v : β)
    (h : alookup xs k = some v) : alookup (xs ++ ys) k = some v := by
  induction xs with
  | nil => simp [alookup] at h
  | cons p rest ih =>
    obtain ⟨k2, v2⟩ := p
    by_cases hk : k2 = k
    · simpa [alookup, hk] using (by simpa [alookup, hk] using h)
    · simp only [alookup, if_neg hk, List.cons_append] at h ⊢
      exact ih h

theorem alookup_append_none (xs ys : List (Nat × β)) (k : Nat)
    (h : alookup xs k = none) : alookup (xs ++ ys) k = alookup ys k := by
  induction xs with
  | nil => simp
  | cons p rest ih =>
    obtain ⟨k2, v2⟩ := p
    by_cases hk : k2 = k
    · simp [alookup, hk] at h
    · simp only [alookup, if_neg hk, List.cons_append] at h ⊢
      exact ih h

theorem alookup_isSome_append (xs ys : List (Nat × β)) (k : Nat)
    (h : (alookup xs k).isSome) : (alookup (xs ++ ys) k).isSome := by
  obtain ⟨v, hv⟩ := Option.isSome_iff_exists.mp h
  rw [alookup_append_left xs ys k v hv]
  rfl

theorem alookup_mem (xs : List (Nat × β)) (k : Nat) (v : β)
    (h : alookup xs k = some v) : (k, v) ∈ xs := by
  induction xs with
  | nil => simp [alookup] at h
  | cons p rest ih =>
    obtain ⟨k2, v2⟩ := p
    by_cases hk : k2 = k
    · simp only [alookup, if_pos hk] at h
      subst hk
      obtain rfl : v2 = v := Option.some.inj h
      exact List.mem_cons_self _ _
    · simp only [alookup, if_neg hk] at h
      exact List.mem_cons_of_mem _ (ih h)

theorem alookup_eq_none_of_not_mem (xs : List (Nat × β)) (k : Nat)
    (h : k ∉ xs.map Prod.fst) : alookup xs k = none := by
  induction xs with
  | nil => rfl
  | cons p rest ih =>
    obtain ⟨k2, v2⟩ := p
    simp only [List.map_cons, List.mem_cons] at h
    push_neg at h
    rw [show alookup ((k2, v2) :: rest) k = if k2 = k then some v2 else alookup rest k
          from rfl, if_neg (show ¬ k2 = k from fun hx => h.1 hx.symm)]
    exact ih h.2

theorem idties_length (n : Nat) : (idties n).length = n := by
  induction n with
  | zero => rfl
  | succ n ih => simp [idties, ih]

theorem alookup_idties (n i : Nat) :
    alookup (idties n) i = if i < n then some i else none := by
  induction n with
  | zero => simp [idties, alookup]
  | succ n ih =>
    by_cases hi : i < n
    · have h1 : alookup (idties n) i = some i := by rw [ih]; simp [hi]
      have h2 := alookup_append_left (idties n) [(n, n)] i i h1
      rw [show idties (n + 1) = idties n ++ [(n, n)] from rfl, h2]
      simp [Nat.lt_succ_of_lt hi]
    · have h1 : alookup (idties n) i = none := by rw [ih]; simp [hi]
      have h2 := alookup_append_none (idties n) [(n, n)] i h1
      rw [show idties (n + 1) = idties n ++ [(n, n)] from rfl, h2]
      by_cases hieq : i = n
      · simp [alookup, hieq]
      · have hlt : ¬ i < n + 1 := by omega
        have hne : ¬ n = i := fun hx => hieq hx.symm
        simp [alookup, hne, hlt]

theorem seqIds_nil : seqIds [] := by simp [seqIds]

theorem seqIds_append_one (refs : WRefs) (a : Addr) (h : seqIds refs) :
    seqIds (refs ++ [(a, refs.length)]) := by
  simp only [seqIds, List.map_append, List.length_append, List.map_cons, List.map_nil]
  rw [seqIds] at h
  rw [h]
  simp [List.range_succ]

theorem id_lt_of_alookup (refs : WRefs) (a i : Nat)
    (hs : seqIds refs) (h : alookup refs a = some i) : i < refs.length := by
  have hmem : (a, i) ∈ refs := alookup_mem refs a i h
  have : i ∈ refs.map Prod.snd := List.mem_map_of_mem Prod.snd hmem
  rw [hs] at this
  exact List.mem_range.mp this

theorem eq_of_mem_of_nodup_snd (refs : WRefs) (a b i : Nat)
    (hnd : (refs.map Prod.snd).Nodup)
    (ha : (a, i) ∈ refs) (hb : (b, i) ∈ refs) : a = b := by
  induction refs with
  | nil => simp at ha
  | cons p rest ih =>
    obtain ⟨k, v⟩ := p
    simp only [List.map_cons, List.nodup_cons] at hnd
    rcases List.mem_cons.mp ha with heq | ha2
    · rcases List.mem_cons.mp hb with heq2 | hb2
      · obtain ⟨rfl, rfl⟩ := Prod.mk.inj heq
        obtain ⟨rfl, -⟩ := Prod.mk.inj heq2
        rfl
      · obtain ⟨rfl, rfl⟩ := Prod.mk.inj heq
        exact absurd (List.mem_map_of_mem Prod.snd hb2) hnd.1
    · rcases List.mem_cons.mp hb with heq2 | hb2
      · obtain ⟨rfl, rfl⟩ := Prod.mk.inj heq2
        exact absurd (List.mem_map_of_mem Prod.snd ha2) hnd.1
      · exact ih hnd.2 ha2 hb2

theorem alookup_inj_of_seqIds (refs : WRefs) (a b i : Nat) (hs : seqIds refs)
    (ha : alookup refs a = some i) (hb : alookup refs b = some i) : a = b := by
  have hnd : (refs.map Prod.snd).Nodup := by
    rw [hs]; exact List.nodup_range _
  exact eq_of_mem_of_nodup_snd refs a b i hnd
    (alookup_mem refs a i ha) (alookup_mem refs b i hb)

theorem alookup_none_of_keys_lt (xs : List (Nat × β)) (n : Nat)
    (h : ∀ k ∈ xs.map Prod.fst, k < n) : alookup xs n = none :=
  alookup_eq_none_of_not_mem xs n (fun hm => absurd (h n hm) (by omega))

theorem alookup_none_of_keys_gt (xs : List (Nat × β)) (n : Nat)
    (h : ∀ k ∈ xs.map Prod.fst, n < k) : alookup xs n = none :=
  alookup_eq_none_of_not_mem xs n (fun hm => absurd (h n hm) (by omega))

theorem transNode_mono (refsA δ : WRefs) (nd : CNode)
    (hch : ∀ c ∈ nd.children, (alookup refsA c).isSome) :
    transNode refsA nd = transNode (refsA ++ δ) nd := by
  unfold transNode
  congr 1
  apply List.map_congr_left
  intro c hc
  obtain ⟨j, hj⟩ := Option.isSome_iff_exists.mp (hch c hc)
  rw [hj, alookup_append_left _ _ _ _ hj]

/-- Lockstep simulation of the reader on the writer's output.  When the
writer serializes the address list l starting from table refs, the reader
run on the produced values from the matching state succeeds, its by-id
table and allocator stay the mirror image of the writer table, the
reconstructed heap grows by exactly the nodes first registered in this
step, each at the address equal to its writer id and with content equal
to the original node renamed along the writer table, and the returned
addresses are the renamed input addresses. -/
theorem wGo_rGo_sim (heap : CHeap) :
    ∀ (f : Nat) (l : List Addr) (refs refs2 : WRefs) (js : List JVal) (st : RSt),
      wGo heap f l refs = some (js, refs2) →
      seqIds refs →
      st.byId = idties refs.length →
      st.nextAddr = refs.length →
      (∀ k ∈ st.heap.map Prod.fst, k < refs.length) →
      ∃ as st2,
        rGo f js st = some (as, st2) ∧
        (∃ δ, refs2 = refs ++ δ) ∧
        seqIds refs2 ∧
        st2.byId = idties refs2.length ∧
        st2.nextAddr = refs2.length ∧
        (∃ ext, st2.heap = st.heap ++ ext ∧
          ∀ k ∈ ext.map Prod.fst, refs.length ≤ k ∧ k < refs2.length) ∧
        as = l.map (fun a => (alookup refs2 a).getD 0) ∧
        (∀ a ∈ l, (alookup refs2 a).isSome) ∧
        (∀ a i, alookup refs2 a = some i → alookup refs a = none →
          ∃ nd, alookup heap a = some nd ∧
            (∀ c ∈ nd.children, (alookup refs2 c).isSome) ∧
            alookup st2.heap i = some (transNode refs2 nd)) := by
  intro f
  induction f with
  | zero =>
    intro l refs refs2 js st hw hseq hbyid hnext hbound
    cases l with
    | nil =>
      simp only [wGo, Option.some.injEq, Prod.mk.injEq] at hw
      obtain ⟨rfl, rfl⟩ := hw
      refine ⟨[], st, rfl, ⟨[], by simp⟩, hseq, hbyid, hnext,
        ⟨[], by simp, by simp⟩, rfl, by simp, ?_⟩
      intro a i hsome hnone
      rw [hsome] at hnone
      cases hnone
    | cons a rest => simp [wGo] at hw
  | succ f ih =>
    intro l refs refs2 js st hw hseq hbyid hnext hbound
    cases l with
    | nil =>
      simp only [wGo, Option.some.injEq, Prod.mk.injEq] at hw
      obtain ⟨rfl, rfl⟩ := hw
      refine ⟨[], st, rfl, ⟨[], by simp⟩, hseq, hbyid, hnext,
        ⟨[], by simp, by simp⟩, rfl, by simp, ?_⟩
      intro a i hsome hnone
      rw [hsome] at hnone
      cases hnone
    | cons a rest =>
      cases halook : alookup refs a with
      | some i =>
        simp only [wGo, halook] at hw
        cases hrec : wGo heap f rest refs with
        | none => rw [hrec] at hw; cases hw
        | some p =>
          obtain ⟨js1, refs2x⟩ := p
          rw [hrec] at hw
          simp only [Option.some.injEq, Prod.mk.injEq] at hw
          obtain ⟨rfl, rfl⟩ := hw
          obtain ⟨as1, st2, hr, hδ, hs2, hb2, hn2, hext, hmap, hsome, hP⟩ :=
            ih rest refs refs2x js1 st hrec hseq hbyid hnext hbound
          have hidlt : i < refs.length := id_lt_of_alookup refs a i hseq halook
          have hbyidlook : alookup st.byId i = some i := by
            rw [hbyid, alookup_idties]
            simp [hidlt]
          obtain ⟨δ, rfl⟩ := hδ
          have hstable : alookup (refs ++ δ) a = some i :=
            alookup_append_left _ _ _ _ halook
          refine ⟨i :: as1, st2, ?_, ⟨δ, rfl⟩, hs2, hb2, hn2, hext, ?_, ?_, hP⟩
          · simp only [rGo, hbyidlook, hr]
          · simp [hstable, hmap]
          · intro a2 ha2
            rcases List.mem_cons.mp ha2 with rfl | h2
            · rw [hstable]; rfl
            · exact hsome a2 h2
      | none =>
        cases hheap : alookup heap a with
        | none => simp [wGo, halook, hheap] at hw
        | some nd =>
          simp only [wGo, halook, hheap] at hw
          cases hrec1 : wGo heap f nd.children (refs ++ [(a, refs.length)]) with
          | none => simp [hrec1] at hw
          | some p1 =>
            obtain ⟨kids, refsK⟩ := p1
            simp only [hrec1] at hw
            cases hrec2 : wGo heap f rest refsK with
            | none => simp [hrec2] at hw
            | some p2 =>
              obtain ⟨js1, refs2x⟩ := p2
              simp only [hrec2] at hw
              simp only [Option.some.injEq, Prod.mk.injEq] at hw
              obtain ⟨rfl, rfl⟩ := hw
              obtain ⟨as_c, stc, hrC, hδ1, hsK, hbK, hnK, hextC, hmapC, hsomeC, hPC⟩ :=
                ih nd.children (refs ++ [(a, refs.length)]) refsK kids
                  { heap := st.heap, byId := st.byId ++ [(refs.length, st.nextAddr)],
                    nextAddr := st.nextAddr + 1 }
                  hrec1 (seqIds_append_one refs a hseq)
                  (by simp only [List.length_append, List.length_cons, List.length_nil]
                      rw [hbyid, hnext]
                      rfl)
                  (by simp [hnext])
                  (by simp only [List.length_append, List.length_cons, List.length_nil]
                      intro k hk
                      exact Nat.lt_succ_of_lt (hbound k hk))
              obtain ⟨δ1, hδ1e⟩ := hδ1
              obtain ⟨ext1, hext1e, hext1b⟩ := hextC
              have hlenK : refs.length + 1 ≤ refsK.length := by
                rw [hδ1e]
                simp [List.length_append]
              have hext1c : ∀ k ∈ List.map Prod.fst ext1,
                  refs.length + 1 ≤ k ∧ k < refsK.length := by
                intro k hk
                have h2 := hext1b k hk
                simpa [List.length_append] using h2
              obtain ⟨as_r, st3, hrR, hδ2, hs2, hb2, hn2, hextR, hmapR, hsomeR, hPR⟩ :=
                ih rest refsK refs2x js1
                  { heap := stc.heap ++ [(st.nextAddr, { val := nd.val, children := as_c })],
                    byId := stc.byId, nextAddr := stc.nextAddr }
                  hrec2 hsK (by simpa using hbK) (by simpa using hnK)
                  (by intro k hk
                      simp only [List.map_append, List.mem_append, List.map_cons,
                        List.map_nil, List.mem_cons, List.not_mem_nil, or_false] at hk
                      rcases hk with hk1 | hk2
                      · rw [hext1e] at hk1
                        simp only [List.map_append, List.mem_append] at hk1
                        rcases hk1 with hk1a | hk1b
                        · exact Nat.lt_of_lt_of_le (hbound k (by simpa using hk1a))
                            (Nat.le_trans (Nat.le_succ _) hlenK)
                        · exact (hext1c k hk1b).2
                      · rw [hk2, hnext]
                        exact Nat.lt_of_lt_of_le (Nat.lt_succ_self _) hlenK)
              obtain ⟨δ2, hδ2e⟩ := hδ2
              obtain ⟨ext2, hext2e, hext2b⟩ := hextR
              have hlen2 : refsK.length ≤ refs2x.length := by
                rw [hδ2e]
                simp [List.length_append]
              have hlooknone : alookup st.byId refs.length = none := by
                rw [hbyid, alookup_idties]
                simp
              have hregA : alookup (refs ++ [(a, refs.length)]) a = some refs.length := by
                rw [alookup_append_none refs _ a halook]
                simp [alookup]
              have hregA2 : alookup refs2x a = some refs.length := by
                rw [hδ2e, hδ1e]
                exact alookup_append_left _ _ _ _
                  (alookup_append_left _ _ _ _ hregA)
              refine ⟨st.nextAddr :: as_r, st3, ?_, ?_, hs2, hb2, hn2, ?_, ?_, ?_, ?_⟩
              · simp only [rGo, hlooknone, hrC, hrR]
              · exact ⟨[(a, refs.length)] ++ δ1 ++ δ2, by
                  rw [hδ2e, hδ1e]
                  simp [List.append_assoc]⟩
              · refine ⟨ext1 ++ [(st.nextAddr, { val := nd.val, children := as_c })] ++ ext2,
                  ?_, ?_⟩
                · rw [hext2e]
                  simp only [hext1e]
                  simp [List.append_assoc]
                · intro k hk
                  simp only [List.map_append, List.mem_append, List.map_cons, List.map_nil,
                    List.mem_cons, List.not_mem_nil, or_false] at hk
                  rcases hk with (hk1 | hk2) | hk3
                  · have h2 := hext1c k hk1
                    exact ⟨Nat.le_trans (Nat.le_succ _) h2.1,
                           Nat.lt_of_lt_of_le h2.2 hlen2⟩
                  · rw [hk2, hnext]
                    exact ⟨Nat.le_refl _,
                           Nat.lt_of_lt_of_le
                             (Nat.lt_of_lt_of_le (Nat.lt_succ_self _) hlenK) hlen2⟩
                  · have h2 := hext2b k hk3
                    exact ⟨Nat.le_trans (Nat.le_trans (Nat.le_succ _) hlenK) h2.1, h2.2⟩
              · rw [List.map_cons, hregA2]
                simp only [Option.getD_some]
                rw [hmapR, hnext]
              · intro a2 ha2
                rcases List.mem_cons.mp ha2 with rfl | h2
                · rw [hregA2]; rfl
                · exact hsomeR a2 h2
              · intro a2 i2 h2some h2none
                cases hKlook : alookup refsK a2 with
                | some j =>
                  have hj2 : alookup refs2x a2 = some j := by
                    rw [hδ2e]
                    exact alookup_append_left _ _ _ _ hKlook
                  have hij : i2 = j := by
                    rw [h2some] at hj2
                    exact Option.some.inj hj2
                  cases hR1look : alookup (refs ++ [(a, refs.length)]) a2 with
                  | some j2 =>
                    have hjj2 : j = j2 := by
                      have := alookup_append_left _ δ1 _ _ hR1look
                      rw [← hδ1e] at this
                      rw [hKlook] at this
                      exact Option.some.inj this
                    have hsing : alookup [(a, refs.length)] a2 = some j2 := by
                      rw [← hR1look, alookup_append_none refs _ a2 h2none]
                    by_cases haa : a = a2
                    · subst haa
                      rw [show alookup [(a, refs.length)] a =
                            if a = a then some refs.length else none from rfl,
                          if_pos rfl] at hsing
                      obtain rfl := Option.some.inj hsing
                      refine ⟨nd, hheap, ?_, ?_⟩
                      · intro c hc
                        have := hsomeC c hc
                        rw [hδ2e]
                        exact alookup_isSome_append _ _ _ this
                      · have hstmid : alookup (stc.heap ++
                            [(st.nextAddr, { val := nd.val, children := as_c })])
                            st.nextAddr =
                            some { val := nd.val, children := as_c } := by
                          have hnone1 : alookup stc.heap st.nextAddr = none := by
                            rw [hext1e]
                            apply alookup_eq_none_of_not_mem
                            simp only [List.map_append, List.mem_append]
                            rintro (hmem | hmem)
                            · have := hbound st.nextAddr (by simpa using hmem)
                              rw [hnext] at this
                              exact absurd this (Nat.lt_irrefl _)
                            · have := (hext1b _ hmem).1
                              simp only [List.length_append, List.length_cons,
                                List.length_nil] at this
                              rw [hnext] at this
                              omega
                          rw [alookup_append_none _ _ _ hnone1]
                          simp [alookup]
                        have hst3 : alookup st3.heap st.nextAddr =
                            some { val := nd.val, children := as_c } := by
                          rw [hext2e]
                          exact alookup_append_left _ _ _ _ (by simpa using hstmid)
                        have hcontent : ({ val := nd.val, children := as_c } : CNode) =
                            transNode refs2x nd := by
                          have h1 : as_c = nd.children.map
                              (fun c => (alookup refsK c).getD 0) := hmapC
                          have h2 : transNode refsK nd = transNode refs2x nd := by
                            rw [hδ2e]
                            exact transNode_mono refsK δ2 nd hsomeC
                          rw [← h2]
                          unfold transNode
                          simp [h1]
                        have hi2 : i2 = st.nextAddr := by
                          rw [hij, hjj2, hnext]
                        rw [hi2, hst3, hcontent]
                    · rw [show alookup [(a, refs.length)] a2 =
                            if a = a2 then some refs.length else none from rfl,
                          if_neg haa] at hsing
                      cases hsing
                  | none =>
                    obtain ⟨nd2, hnd2, hch2, hentry2⟩ := hPC a2 j hKlook hR1look
                    refine ⟨nd2, hnd2, ?_, ?_⟩
                    · intro c hc
                      rw [hδ2e]
                      exact alookup_isSome_append _ _ _ (hch2 c hc)
                    · have hst3 : alookup st3.heap j = some (transNode refsK nd2) := by
                        rw [hext2e]
                        apply alookup_append_left
                        simp only []
                        exact alookup_append_left _ _ _ _ hentry2
                      have h2 : transNode refsK nd2 = transNode refs2x nd2 := by
                        rw [hδ2e]
                        exact transNode_mono refsK δ2 nd2 hch2
                      rw [hij, hst3, h2]
                | none =>
                  exact hPR a2 i2 h2some hKlook

/-- C2: reading back the writer's output reconstructs the graph up to the
injective renaming given by the writer's identity table: the reader
succeeds, the root maps to the reconstructed root address, every
serialized object is rebuilt with the same payload and with children that
are exactly the renamed original children (equality in all declared
fields, with all children again covered by the renaming), and the
renaming is injective, so a child reached by two distinct owning paths is
rebuilt as one single instance whose address both reconstructed parents
hold; a mutation through one path is therefore visible through the
other. -/
theorem codec_roundtrip_identity_and_sharing (heap : CHeap) (root : Addr)
    (fuel : Nat) (js : List JVal) (refsW : WRefs)
    (hw : wGo heap fuel [root] [] = some (js, refsW)) :
    ∃ as st,
      rGo fuel js rInit = some (as, st) ∧
      (alookup refsW root).isSome ∧
      as = [(alookup refsW root).getD 0] ∧
      (∀ a i, alookup refsW a = some i →
        ∃ nd, alookup heap a = some nd ∧
          (∀ c ∈ nd.children, (alookup refsW c).isSome) ∧
          alookup st.heap i = some (transNode refsW nd)) ∧
      (∀ a b i, alookup refsW a = some i → alookup refsW b = some i → a = b) := by
  obtain ⟨as, st2, hr, hδ, hs, hb, hn, hext, hmap, hsome, hP⟩ :=
    wGo_rGo_sim heap fuel [root] [] refsW js rInit hw seqIds_nil rfl rfl
      (by simp [rInit])
  refine ⟨as, st2, hr, hsome root (by simp), by simpa using hmap, ?_, ?_⟩
  · intro a i ha
    exact hP a i ha rfl
  · intro a b i ha hb2
    exact alookup_inj_of_seqIds refsW a b i hs ha hb2

/-- Diamond graph: the root owns two children through two Reference
fields, and both children own the same grandchild instance, so two
distinct owning paths reach address 3. -/
def heapD : CHeap :=
  [(0, { val := 0, children := [1, 2] }),
   (1, { val := 1, children := [3] }),
   (2, { val := 2, children := [3] }),
   (3, { val := 99, children := [] })]

/-- Serialized form of the diamond graph: the shared grandchild is
emitted once in full and once as a bare back-reference. -/
def jsD : List JVal :=
  [JVal.node 0 0 [JVal.node 1 1 [JVal.node 2 99 []], JVal.node 3 2 [JVal.backref 2]]]

/-- Writer identity table of the diamond graph. -/
def refsD : WRefs := [(0, 0), (1, 1), (3, 2), (2, 3)]

/-- Witness for C2 on the diamond graph with an aliased grandchild. -/
theorem codec_roundtrip_witness :
    ∃ as st,
      rGo 10 jsD rInit = some (as, st) ∧
      (alookup refsD 0).isSome ∧
      as = [(alookup refsD 0).getD 0] ∧
      (∀ a i, alookup refsD a = some i →
        ∃ nd, alookup heapD a = some nd ∧
          (∀ c ∈ nd.children, (alookup refsD c).isSome) ∧
          alookup st.heap i = some (transNode refsD nd)) ∧
      (∀ a b i, alookup refsD a = some i → alookup refsD b = some i → a = b) :=
  codec_roundtrip_identity_and_sharing heapD 0 10 jsD refsD (by rfl)

end ClusterControl
